import Mathlib

/-!
Verification of the PII detection–merge–redact engine of `src/safai-api/app.py`.

The engine's data model and operations are shallowly embedded here:

* Python `str` values are modelled as `List Char`; Python slicing is modelled
  by `pySlice` (offsets are unbounded integers, clamped the way CPython does).
* The `Span` dataclass keeps its fields `type`, `start`, `end`, `text`.
  Offsets are modelled as `Int` (Python integers are unbounded).
* Python's stable `sorted(spans, key=lambda x: (x.start, -(x.end-x.start)))`
  is modelled by `List.insertionSort` with the total preorder `spanLE`
  (insertion sort in Mathlib is stable for a total preorder, like CPython's
  list sort).
* `re` pattern matching is external library behaviour, so the pattern table
  of `detect_pii_heuristics` is abstracted into a `Matcher` argument that
  yields the `(m.start(), m.end())` offset pairs of `pat.finditer(text)`;
  the clipping, validation and span construction around it follow the source.
* Python's `str.format` is modelled by `pyFormat` for the subset exercised by
  the engine: literal text, `{{` / `}}` escapes, and a `{type}` field; any
  other replacement field raises (KeyError / ValueError in CPython), which is
  modelled as `Except.error`.  Exceptions propagate as `Except.error`.
* `merge_overlaps` mutates the Python span objects it sweeps over (`cur` is
  an alias into the caller's list).  Its *return value* is modelled by the
  pure `merge_overlaps` below; the *post-call states of the argument's span
  objects* are modelled by `mergePost`, which tags every span with its list
  position (object identity) and replays the same sweep.
-/

namespace Safai

/-- The `Span` dataclass of `app.py`: a typed half-open interval `[start, end)`
over the original text together with the captured substring. -/
structure Span where
  type : String
  start : Int
  «end» : Int
  text : List Char
deriving Repr, DecidableEq

/-- The length `x.end - x.start` of a span, as used by the sort key
`(x.start, -(x.end-x.start))` and the comparisons of `merge_overlaps`. -/
def lenI (s : Span) : Int := s.«end» - s.start

/-- `_clip_span(s, e, n)` from `app.py`:
`(max(0, min(s, n)), max(0, min(e, n)))`. -/
def _clip_span (s e : Int) (n : Nat) : Int × Int :=
  (max 0 (min s (n : Int)), max 0 (min e (n : Int)))

/-- One step of the Luhn sum of `_luhn_ok`: traverses an already reversed
digit list; `alt` says whether the current digit is doubled. -/
def luhnSum : List Char → Bool → Int
  | [], _ => 0
  | c :: r, alt =>
    let d : Int := (c.toNat : Int) - 48
    let d' := if alt then (if d * 2 > 9 then d * 2 - 9 else d * 2) else d
    d' + luhnSum r (!alt)

/-- `_luhn_ok(digits_only)` from `app.py`: right-to-left traversal doubling
every second digit (the rightmost is not doubled), subtracting 9 from doubled
digits exceeding 9; valid iff the sum is divisible by 10. -/
def _luhn_ok (digitsOnly : List Char) : Bool :=
  luhnSum digitsOnly.reverse false % 10 == 0

/-- Resolve a Python slice endpoint `i` against a string of length `n`:
negative indices count from the end, and endpoints are clamped into `[0, n]`. -/
def pyIdx (n : Nat) (i : Int) : Nat :=
  if i < 0 then ((n : Int) + i).toNat else min i.toNat n

/-- Python slice `l[a:b]`. -/
def pySlice (l : List Char) (a b : Int) : List Char :=
  (l.take (pyIdx l.length b)).drop (pyIdx l.length a)

/-- Python slice `l[a:]`. -/
def pySliceFrom (l : List Char) (a : Int) : List Char :=
  l.drop (pyIdx l.length a)

/-- Digit list to number, most significant first. -/
def digitsToNat (ds : List Char) : Nat :=
  ds.foldl (fun a c => a * 10 + (c.toNat - 48)) 0

/-- Python `int(x)` on a (ASCII) string: strips whitespace, accepts an
optional sign followed by a nonempty digit run, otherwise raises
(modelled as `none`). -/
def pyInt (s : List Char) : Option Int :=
  let t := ((s.dropWhile Char.isWhitespace).reverse.dropWhile Char.isWhitespace).reverse
  match t with
  | '-' :: ds => if ds ≠ [] ∧ ds.all Char.isDigit then some (-(digitsToNat ds : Int)) else none
  | '+' :: ds => if ds ≠ [] ∧ ds.all Char.isDigit then some ((digitsToNat ds : Int)) else none
  | ds => if ds ≠ [] ∧ ds.all Char.isDigit then some ((digitsToNat ds : Int)) else none

/-- Python `str.split(sep)` for a single-character separator: keeps empty
fields, `"".split(".") == [""]`. -/
def splitSep (sep : Char) : List Char → List (List Char)
  | [] => [[]]
  | c :: rest =>
    match splitSep sep rest with
    | [] => [[]]
    | f :: fs => if c = sep then [] :: f :: fs else (c :: f) :: fs

/-- The closed set of PII types of `app.py`'s `PIIType` enum. -/
inductive PIIType where
  | EMAIL | PHONE | SSN | CREDIT_CARD | IPV4 | IPV6 | IBAN | DATE
deriving DecidableEq, Repr

/-- `t.value` of the Python enum. -/
def PIIType.value : PIIType → String
  | .EMAIL => "EMAIL"
  | .PHONE => "PHONE"
  | .SSN => "SSN"
  | .CREDIT_CARD => "CREDIT_CARD"
  | .IPV4 => "IPV4"
  | .IPV6 => "IPV6"
  | .IBAN => "IBAN"
  | .DATE => "DATE"

/-- Iteration order of the `PII_PATTERNS` dict literal in `app.py`
(Python dicts preserve insertion order). -/
def piiTable : List PIIType :=
  [.EMAIL, .SSN, .IPV4, .IPV6, .IBAN, .DATE, .PHONE, .CREDIT_CARD]

/-- The abstracted regex layer: for each type, the list of
`(m.start(), m.end())` pairs that `pat.finditer(text)` yields. -/
def Matcher : Type := PIIType → List Char → List (Nat × Nat)

/-- `int(x) for x in val.split(".")` followed by the octet parse of
`detect_pii_heuristics`; `none` models the `except: continue`. -/
def parseOctets (val : List Char) : Option (List Int) :=
  (splitSep '.' val).mapM pyInt

/-- The body of the inner loop of `detect_pii_heuristics` for one regex
match: clip the offsets, capture the substring, apply the per-type
validator, and build the span (or drop the candidate). -/
def processMatch (text : List Char) (t : PIIType) (m : Nat × Nat) : Option Span :=
  let n := text.length
  let p := _clip_span (m.1 : Int) (m.2 : Int) n
  let val := pySlice text p.1 p.2
  if t = .CREDIT_CARD then
    let digits := val.filter Char.isDigit
    if digits.length < 13 ∨ _luhn_ok digits = false then none
    else some ⟨t.value, p.1, p.2, val⟩
  else if t = .IPV4 then
    match parseOctets val with
    | none => none
    | some octs => if octs.any (fun o => 255 < o) then none else some ⟨t.value, p.1, p.2, val⟩
  else some ⟨t.value, p.1, p.2, val⟩

/-- `detect_pii_heuristics(text)` from `app.py`, with the regex layer
abstracted as `matcher`: iterate the pattern table in order, and for each
match clip, validate and append. -/
def detect_pii_heuristics (matcher : Matcher) (text : List Char) : List Span :=
  piiTable.flatMap fun t => (matcher t text).filterMap (processMatch text t)

/-- The total preorder realising Python's stable sort with key
`(x.start, -(x.end - x.start))`. -/
def spanLE (a b : Span) : Prop :=
  a.start < b.start ∨ (a.start = b.start ∧ lenI b ≤ lenI a)

instance : DecidableRel spanLE := fun a b => by unfold spanLE; infer_instance

instance : IsTotal Span spanLE := by
  constructor
  intro a b
  unfold spanLE
  rcases lt_trichotomy a.start b.start with h | h | h
  · exact Or.inl (Or.inl h)
  · rcases le_total (lenI b) (lenI a) with h' | h'
    · exact Or.inl (Or.inr ⟨h, h'⟩)
    · exact Or.inr (Or.inr ⟨h.symm, h'⟩)
  · exact Or.inr (Or.inl h)

instance : IsTrans Span spanLE := by
  constructor
  intro a b c hab hbc
  unfold spanLE at *
  rcases hab with h1 | ⟨h1, h1'⟩ <;> rcases hbc with h2 | ⟨h2, h2'⟩
  · exact Or.inl (h1.trans h2)
  · exact Or.inl (h2 ▸ h1)
  · exact Or.inl (h1 ▸ h2)
  · exact Or.inr ⟨h1.trans h2, h2'.trans h1'⟩

/-- The left-to-right sweep of `merge_overlaps`: `cur` is the open span; a
next span `s` with `s.start ≤ cur.end` is reconciled into `cur` (adopting
`s`'s end/text/type when `s` is strictly longer), otherwise `cur` is closed. -/
def mergeLoop (cur : Span) : List Span → List Span
  | [] => [cur]
  | s :: rest =>
    if s.start ≤ cur.«end» then
      if lenI cur < lenI s then
        mergeLoop { cur with «end» := s.«end», text := s.text, type := s.type } rest
      else
        mergeLoop { cur with «end» := max cur.«end» s.«end» } rest
    else
      cur :: mergeLoop s rest

/-- `merge_overlaps(spans)` from `app.py` (value semantics of the returned
list): stable sort by `(start, -length)`, then sweep. -/
def merge_overlaps (spans : List Span) : List Span :=
  match List.insertionSort spanLE spans with
  | [] => []
  | c :: rest => mergeLoop c rest

/-- `overlap(a, b)` from `app.py`:
`not (a.end <= b.start or b.end <= a.start)`. -/
def overlap (a b : Span) : Prop :=
  ¬(a.«end» ≤ b.start ∨ b.«end» ≤ a.start)

instance (a b : Span) : Decidable (overlap a b) := by unfold overlap; infer_instance

/-- A position `p` is covered by some span of `M`. -/
def inCover (p : Int) (M : List Span) : Prop :=
  ∃ sp ∈ M, sp.start ≤ p ∧ p < sp.«end»

instance (p : Int) (M : List Span) : Decidable (inCover p M) := by
  unfold inCover; infer_instance

instance {ε α : Type} [DecidableEq ε] [DecidableEq α] : DecidableEq (Except ε α) := fun x y =>
  match x, y with
  | .error e, .error f =>
    decidable_of_iff (e = f) ⟨fun h => by rw [h], fun h => by cases h; rfl⟩
  | .error _, .ok _ => isFalse fun h => by cases h
  | .ok _, .error _ => isFalse fun h => by cases h
  | .ok a, .ok b =>
    decidable_of_iff (a = b) ⟨fun h => by rw [h], fun h => by cases h; rfl⟩

/-- `str.format` of CPython, for the subset the engine exercises.  The
`Bool` flag says whether we are inside a replacement field, `acc` holds the
reversed field content.  Literal characters are copied; `{{` and `}}` are
escapes; a lone `}` or an unterminated `{` raises ValueError; a field named
`type` with no conversion and no format spec substitutes `v`; any other
field raises (KeyError in CPython).  Nested fields inside a format spec and
non-trivial format specs are not exercised by the engine and are modelled as
errors. -/
def pyFormatAux (v : List Char) : Nat → List Char → List Char → Except String (List Char)
  | 0, _, [] => .ok []
  | 0, _, c :: rest =>
    if c = '{' then pyFormatAux v 1 [] rest
    else if c = '}' then pyFormatAux v 2 [] rest
    else (fun t => c :: t) <$> pyFormatAux v 0 [] rest
  | 1, _, [] => .error "ValueError: Single open brace encountered in format string"
  | 1, _, c :: rest =>
    if c = '{' then (fun t => '{' :: t) <$> pyFormatAux v 0 [] rest
    else if c = '}' then .error "IndexError: empty replacement field"
    else pyFormatAux v 3 [c] rest
  | 2, _, [] => .error "ValueError: Single close brace encountered in format string"
  | 2, _, c :: rest =>
    if c = '}' then (fun t => '}' :: t) <$> pyFormatAux v 0 [] rest
    else .error "ValueError: Single close brace encountered in format string"
  | 3, _, [] => .error "ValueError: expected close brace before end of string"
  | 3, acc, c :: rest =>
    if c = '}' then
      let field := acc.reverse
      let name := field.takeWhile fun ch => ch ≠ ':' ∧ ch ≠ '!'
      let after := field.dropWhile fun ch => ch ≠ ':' ∧ ch ≠ '!'
      if name = ['t', 'y', 'p', 'e'] then
        if after = [] then (fun t => v ++ t) <$> pyFormatAux v 0 [] rest
        else .error "format spec on field not modelled"
      else .error "KeyError: unknown field in format string"
    else pyFormatAux v 3 (c :: acc) rest
  | _ + 4, _, _ => .error "unreachable state"

/-- `token_fmt.format(type=v)` as used by `apply_redaction`.  State `0` is
literal copying, state `1` follows a `{`, state `2` follows a `}`, state
`3` is inside a replacement field. -/
def pyFormat (tmpl v : List Char) : Except String (List Char) :=
  pyFormatAux v 0 [] tmpl

/-- The redaction loop of `apply_redaction`: copy `text[last:sp.start]`,
emit the formatted token, accumulate `sp.end - sp.start`, continue from
`sp.end`; after the final span append `text[last:]`. -/
def redactLoop (text fmt : List Char) (last : Int) : List Span → Except String (List Char × Int)
  | [] => .ok (pySliceFrom text last, 0)
  | sp :: rest =>
    match pyFormat fmt sp.type.toList with
    | .error e => .error e
    | .ok tok =>
      match redactLoop text fmt sp.«end» rest with
      | .error e => .error e
      | .ok pr => .ok (pySlice text last sp.start ++ tok ++ pr.1, (sp.«end» - sp.start) + pr.2)

/-- `apply_redaction(text, spans, token_fmt)` from `app.py`: empty span list
short-circuits to `(text, 0)`; otherwise the spans are re-merged through
`merge_overlaps` and redacted left to right.  A formatting exception
propagates as `Except.error`. -/
def apply_redaction (text : List Char) (spans : List Span) (fmt : List Char) :
    Except String (List Char × Int) :=
  if spans = [] then .ok (text, 0)
  else redactLoop text fmt 0 (merge_overlaps spans)

/-- The agreement counters incremented by the hybrid branch of
`_pii_redact_core`. -/
structure Tally where
  agree : Nat
  heurOnly : Nat
  llmOnly : Nat
deriving Repr, DecidableEq

/-- The agreement counting of `_pii_redact_core` (lines 694-702): a
heuristic span agrees iff some LLM span overlaps it with the same type; an
LLM span is LLM-only iff no heuristic span overlaps it with the same type. -/
def computeTally (heur llm : List Span) : Tally where
  agree := heur.countP fun hs => llm.any fun ls => decide (overlap hs ls) && hs.type == ls.type
  heurOnly := heur.countP fun hs => !(llm.any fun ls => decide (overlap hs ls) && hs.type == ls.type)
  llmOnly := llm.countP fun ls => !(heur.any fun hs => decide (overlap ls hs) && hs.type == ls.type)

/-- The clamping step `_pii_redact_core` applies to every LLM span (lines
681-683): clip the offsets into `[0, n]` and recapture `text[s:e]`. -/
def clampSpans (text : List Char) (spans : List Span) : List Span :=
  spans.map fun sp =>
    let p := _clip_span sp.start sp.«end» text.length
    { sp with start := p.1, «end» := p.2, text := pySlice text p.1 p.2 }

/-- The `mode` field of a `/pii/redact` request. -/
inductive Mode where
  | heuristic | llm | hybrid
deriving DecidableEq, Repr

/-- Object-identity-aware sweep of `merge_overlaps`: spans are tagged with
their position in the argument list (their Python object identity), and the
in-place field assignments performed on `cur` are replayed on the tagged
value.  The result lists the closed `cur` objects with their final field
values. -/
def mergeLoopM (cur : Nat × Span) : List (Nat × Span) → List (Nat × Span)
  | [] => [cur]
  | (j, s) :: rest =>
    if s.start ≤ cur.2.«end» then
      if lenI cur.2 < lenI s then
        mergeLoopM (cur.1, { cur.2 with «end» := s.«end», text := s.text, type := s.type }) rest
      else
        mergeLoopM (cur.1, { cur.2 with «end» := max cur.2.«end» s.«end» }) rest
    else
      cur :: mergeLoopM (j, s) rest

/-- The stable sort key relation lifted to tagged spans. -/
def spanLEi (a b : Nat × Span) : Prop := spanLE a.2 b.2

instance : DecidableRel spanLEi := fun a b => by unfold spanLEi; infer_instance

/-- The merge sweep on tagged spans. -/
def mergeIndexed (spans : List Span) : List (Nat × Span) :=
  match List.insertionSort spanLEi spans.enum with
  | [] => []
  | c :: rest => mergeLoopM c rest

/-- The state of the span objects of `spans` after `merge_overlaps(spans)`
returns: objects that served as `cur` carry their final (possibly mutated)
field values, all others are unchanged. -/
def mergePost (spans : List Span) : List Span :=
  spans.enum.map fun p =>
    match (mergeIndexed spans).find? (fun q => q.1 == p.1) with
    | some q => q.2
    | none => p.2

/-- The observable outcome of `_pii_redact_core`: the response fields
(`method`, `redacted_text`, `spans`, `stats`) plus the agreement tally the
hybrid branch reports to the metrics collaborator (`none` when no tally is
computed). -/
structure PIIResult where
  method : Mode
  redacted_text : List Char
  spans : List Span
  stats : List (String × Int)
  tally : Option Tally
deriving Repr, DecidableEq

/-- `_pii_redact_core` from `app.py`, with the regex layer abstracted as
`matcher` and the semantic detector's outcome injected as `llmResult`
(`Except.error` models a provider failure).  Empty text short-circuits.
The heuristic pass runs in heuristic/hybrid mode; the LLM pass (in llm/
hybrid mode) propagates provider errors and clamps the returned spans.  The
hybrid branch merges the concatenated lists and computes the agreement
tally from the span objects as they stand after that merge (which mutates
aliased spans in place, see `mergePost`). -/
def _pii_redact_core (matcher : Matcher) (mode : Mode) (text : List Char)
    (llmResult : Except String (List Span)) (fmt : List Char) :
    Except String PIIResult :=
  if text.length = 0 then
    .ok ⟨mode, [], [], [("total", 0)], none⟩
  else
    let heurSpans := if mode = .heuristic ∨ mode = .hybrid then detect_pii_heuristics matcher text else []
    let llmAttempt : Except String (List Span) :=
      if mode = .llm ∨ mode = .hybrid then
        match llmResult with
        | .error e => .error e
        | .ok raw => .ok (clampSpans text raw)
      else .ok []
    match llmAttempt with
    | .error e => .error e
    | .ok llmSpans =>
      let ut : List Span × Option Tally :=
        match mode with
        | .heuristic => (merge_overlaps heurSpans, none)
        | .llm => (merge_overlaps llmSpans, none)
        | .hybrid =>
          let combined := heurSpans ++ llmSpans
          let post := mergePost combined
          (merge_overlaps combined,
            some (computeTally (post.take heurSpans.length) (post.drop heurSpans.length)))
      match apply_redaction text ut.1 fmt with
      | .error e => .error e
      | .ok pr =>
        .ok ⟨mode, pr.1, ut.1,
          [("heuristic_spans", (heurSpans.length : Int)), ("llm_spans", (llmSpans.length : Int)),
           ("union_spans", (ut.1.length : Int)), ("bytes_redacted", pr.2)], ut.2⟩

/-! ### Properties of the span merger -/

theorem spanLE_start {a b : Span} (h : spanLE a b) : a.start ≤ b.start := by
  rcases h with h | ⟨h, _⟩
  · exact le_of_lt h
  · exact le_of_eq h

theorem spanLE_upgrade {cur cur' x : Span} (hs : cur'.start = cur.start)
    (hl : lenI cur ≤ lenI cur') (h : spanLE cur x) : spanLE cur' x := by
  rcases h with h | ⟨h, h'⟩
  · exact Or.inl (hs ▸ h)
  · exact Or.inr ⟨hs ▸ h, h'.trans hl⟩

theorem adopt_end_lt {cur s : Span} (hst : cur.start ≤ s.start) (hl : lenI cur < lenI s) :
    cur.«end» < s.«end» := by
  unfold lenI at hl; omega

theorem mergeLoop_head (rest : List Span) : ∀ (cur : Span),
    (∀ s ∈ rest, cur.start ≤ s.start) →
    ∃ h t, mergeLoop cur rest = h :: t ∧ h.start = cur.start ∧ cur.«end» ≤ h.«end» := by
  induction rest with
  | nil => exact fun cur _ => ⟨cur, [], rfl, rfl, le_refl _⟩
  | cons s rest ih =>
    intro cur hp
    have hst : cur.start ≤ s.start := hp s (List.mem_cons_self s rest)
    by_cases h1 : s.start ≤ cur.«end»
    · by_cases h2 : lenI cur < lenI s
      · obtain ⟨h, t, heq, hs, he⟩ := ih { cur with «end» := s.«end», text := s.text, type := s.type }
          (fun x hx => hp x (List.mem_cons_of_mem _ hx))
        refine ⟨h, t, ?_, hs, ?_⟩
        · rw [mergeLoop, if_pos h1, if_pos h2]; exact heq
        · exact le_trans (le_of_lt (adopt_end_lt hst h2)) he
      · obtain ⟨h, t, heq, hs, he⟩ := ih { cur with «end» := max cur.«end» s.«end» }
          (fun x hx => hp x (List.mem_cons_of_mem _ hx))
        refine ⟨h, t, ?_, hs, le_trans (le_max_left _ _) he⟩
        rw [mergeLoop, if_pos h1, if_neg h2]; exact heq
    · exact ⟨cur, mergeLoop s rest, by rw [mergeLoop, if_neg h1], rfl, le_refl _⟩

theorem mergeLoop_degen {cur : Span} (hd : cur.«end» < cur.start) (rest : List Span)
    (hp : ∀ s ∈ rest, cur.start ≤ s.start) : ∃ t, mergeLoop cur rest = cur :: t := by
  cases rest with
  | nil => exact ⟨[], rfl⟩
  | cons s rest =>
    have hn : ¬ s.start ≤ cur.«end» := by
      have := hp s (List.mem_cons_self s rest); omega
    exact ⟨mergeLoop s rest, by rw [mergeLoop, if_neg hn]⟩

/-- The canonical-output relation: a strict gap between consecutive spans,
and the sort key is respected. -/
def spanR (a b : Span) : Prop := a.«end» < b.start ∧ spanLE a b

instance : IsTrans Span spanR :=
  ⟨fun _ _ _ hab hbc => ⟨lt_of_lt_of_le hab.1 (spanLE_start hbc.2),
    IsTrans.trans _ _ _ hab.2 hbc.2⟩⟩

theorem mergeLoop_chain (rest : List Span) : ∀ (cur : Span),
    List.Pairwise spanLE (cur :: rest) → List.Chain' spanR (mergeLoop cur rest) := by
  induction rest with
  | nil => intro cur _; simp [mergeLoop]
  | cons s rest ih =>
    intro cur hpw
    rw [List.pairwise_cons] at hpw
    obtain ⟨hcur, hrest⟩ := hpw
    have hcs : spanLE cur s := hcur s (List.mem_cons_self s rest)
    by_cases h1 : s.start ≤ cur.«end»
    · by_cases h2 : lenI cur < lenI s
      · rw [mergeLoop, if_pos h1, if_pos h2]
        apply ih
        rw [List.pairwise_cons]
        refine ⟨fun x hx => ?_, (List.pairwise_cons.mp hrest).2⟩
        refine spanLE_upgrade ?_ ?_ (hcur x (List.mem_cons_of_mem _ hx))
        · rfl
        · have hlt := adopt_end_lt (spanLE_start hcs) h2
          unfold lenI at *; simp only; omega
      · rw [mergeLoop, if_pos h1, if_neg h2]
        apply ih
        rw [List.pairwise_cons]
        refine ⟨fun x hx => ?_, (List.pairwise_cons.mp hrest).2⟩
        refine spanLE_upgrade ?_ ?_ (hcur x (List.mem_cons_of_mem _ hx))
        · rfl
        · have hm := le_max_left cur.«end» s.«end»
          unfold lenI at *; simp only; omega
    · rw [mergeLoop, if_neg h1]
      have hchain := ih s hrest
      have hstarts : ∀ x ∈ rest, s.start ≤ x.start :=
        fun x hx => spanLE_start ((List.pairwise_cons.mp hrest).1 x hx)
      obtain ⟨h, t, heq, hs, _⟩ := mergeLoop_head rest s hstarts
      rw [heq] at hchain ⊢
      rw [List.chain'_cons]
      refine ⟨⟨by omega, ?_⟩, hchain⟩
      rcases hcs with hlt | ⟨heqs, hlen⟩
      · exact Or.inl (by omega)
      · have hd : s.«end» < s.start := by
          have := not_le.mp h1
          unfold lenI at hlen; omega
        obtain ⟨t', heq'⟩ := mergeLoop_degen hd rest hstarts
        rw [heq'] at heq
        injection heq with hh _
        subst hh
        exact Or.inr ⟨heqs, hlen⟩

theorem inCover_cons {p : Int} {x : Span} {l : List Span} :
    inCover p (x :: l) ↔ (x.start ≤ p ∧ p < x.«end») ∨ inCover p l := by
  constructor
  · rintro ⟨sp, hsp, h⟩
    rcases List.mem_cons.mp hsp with rfl | hsp'
    · exact Or.inl h
    · exact Or.inr ⟨sp, hsp', h⟩
  · rintro (h | ⟨sp, hsp, h⟩)
    · exact ⟨x, List.mem_cons_self x l, h⟩
    · exact ⟨sp, List.mem_cons_of_mem _ hsp, h⟩

theorem merge_chain (S : List Span) : List.Chain' spanR (merge_overlaps S) := by
  unfold merge_overlaps
  have hs := List.sorted_insertionSort spanLE S
  cases h : List.insertionSort spanLE S with
  | nil => simp
  | cons c rest =>
    rw [h] at hs
    exact mergeLoop_chain rest c hs

theorem merge_pairwiseR (S : List Span) : List.Pairwise spanR (merge_overlaps S) :=
  List.chain'_iff_pairwise.mp (merge_chain S)

theorem inCover_perm {l l' : List Span} (h : l.Perm l') (p : Int) :
    inCover p l ↔ inCover p l' := by
  unfold inCover
  constructor <;> rintro ⟨sp, hm, hc⟩
  · exact ⟨sp, h.mem_iff.mp hm, hc⟩
  · exact ⟨sp, h.mem_iff.mpr hm, hc⟩

theorem mergeLoop_cover (rest : List Span) : ∀ (cur : Span) (p : Int),
    List.Pairwise spanLE (cur :: rest) →
    (inCover p (mergeLoop cur rest) ↔ inCover p (cur :: rest)) := by
  induction rest with
  | nil => intro cur p _; rfl
  | cons s rest ih =>
    intro cur p hpw
    rw [List.pairwise_cons] at hpw
    obtain ⟨hcur, hrest⟩ := hpw
    have hcs : cur.start ≤ s.start := spanLE_start (hcur s (List.mem_cons_self s rest))
    have htail : List.Pairwise spanLE rest := (List.pairwise_cons.mp hrest).2
    by_cases h1 : s.start ≤ cur.«end»
    · by_cases h2 : lenI cur < lenI s
      · rw [mergeLoop, if_pos h1, if_pos h2]
        have hlt := adopt_end_lt hcs h2
        have hup : List.Pairwise spanLE
            ({ cur with «end» := s.«end», text := s.text, type := s.type } :: rest) := by
          rw [List.pairwise_cons]
          refine ⟨fun x hx => ?_, htail⟩
          refine spanLE_upgrade ?_ ?_ (hcur x (List.mem_cons_of_mem _ hx))
          · rfl
          · unfold lenI at *; simp only; omega
        rw [ih _ p hup]
        simp only [inCover_cons]
        by_cases hC : inCover p rest
        · simp [hC]
        · simp only [hC, or_false]
          omega
      · rw [mergeLoop, if_pos h1, if_neg h2]
        have hm := le_max_left cur.«end» s.«end»
        have hm' := le_max_right cur.«end» s.«end»
        have hup : List.Pairwise spanLE ({ cur with «end» := max cur.«end» s.«end» } :: rest) := by
          rw [List.pairwise_cons]
          refine ⟨fun x hx => ?_, htail⟩
          refine spanLE_upgrade ?_ ?_ (hcur x (List.mem_cons_of_mem _ hx))
          · rfl
          · unfold lenI at *; simp only; omega
        rw [ih _ p hup]
        simp only [inCover_cons]
        by_cases hC : inCover p rest
        · simp [hC]
        · simp only [hC, or_false]
          rcases le_total s.«end» cur.«end» with hmx | hmx
          · rw [max_eq_left hmx]; omega
          · rw [max_eq_right hmx]; omega
    · rw [mergeLoop, if_neg h1]
      rw [inCover_cons, ih s p hrest]
      simp only [inCover_cons]

theorem merge_cover (S : List Span) (p : Int) :
    inCover p (merge_overlaps S) ↔ inCover p S := by
  unfold merge_overlaps
  have hperm := List.perm_insertionSort spanLE S
  have hs := List.sorted_insertionSort spanLE S
  cases h : List.insertionSort spanLE S with
  | nil =>
    rw [h] at hperm
    have hS : S = [] := hperm.symm.eq_nil
    subst hS
    rfl
  | cons c rest =>
    rw [h] at hperm hs
    rw [mergeLoop_cover rest c p hs]
    exact inCover_perm hperm p

theorem mergeLoop_wf (rest : List Span) : ∀ (cur : Span),
    List.Pairwise spanLE (cur :: rest) → cur.start ≤ cur.«end» →
    (∀ s ∈ rest, s.start ≤ s.«end») →
    ∀ b ∈ mergeLoop cur rest, b.start ≤ b.«end» := by
  induction rest with
  | nil =>
    intro cur _ hc _ b hb
    simp only [mergeLoop, List.mem_singleton] at hb
    subst hb; exact hc
  | cons s rest ih =>
    intro cur hpw hc hwf b hb
    rw [List.pairwise_cons] at hpw
    obtain ⟨hcur, hrest⟩ := hpw
    have hcs : cur.start ≤ s.start := spanLE_start (hcur s (List.mem_cons_self s rest))
    have hswf : s.start ≤ s.«end» := hwf s (List.mem_cons_self s rest)
    have htail : List.Pairwise spanLE rest := (List.pairwise_cons.mp hrest).2
    have hwf' : ∀ x ∈ rest, x.start ≤ x.«end» := fun x hx => hwf x (List.mem_cons_of_mem _ hx)
    by_cases h1 : s.start ≤ cur.«end»
    · by_cases h2 : lenI cur < lenI s
      · rw [mergeLoop, if_pos h1, if_pos h2] at hb
        have hup : List.Pairwise spanLE
            ({ cur with «end» := s.«end», text := s.text, type := s.type } :: rest) := by
          rw [List.pairwise_cons]
          refine ⟨fun x hx => ?_, htail⟩
          refine spanLE_upgrade ?_ ?_ (hcur x (List.mem_cons_of_mem _ hx))
          · rfl
          · unfold lenI at *; simp only; omega
        exact ih _ hup (by simp only; omega) hwf' b hb
      · rw [mergeLoop, if_pos h1, if_neg h2] at hb
        have hm := le_max_left cur.«end» s.«end»
        have hup : List.Pairwise spanLE ({ cur with «end» := max cur.«end» s.«end» } :: rest) := by
          rw [List.pairwise_cons]
          refine ⟨fun x hx => ?_, htail⟩
          refine spanLE_upgrade ?_ ?_ (hcur x (List.mem_cons_of_mem _ hx))
          · rfl
          · unfold lenI at *; simp only; omega
        exact ih _ hup (by simp only; omega) hwf' b hb
    · rw [mergeLoop, if_neg h1] at hb
      rcases List.mem_cons.mp hb with rfl | hb'
      · exact hc
      · exact ih s hrest hswf hwf' b hb'

theorem merge_wf (S : List Span) (h : ∀ sp ∈ S, sp.start ≤ sp.«end») :
    ∀ b ∈ merge_overlaps S, b.start ≤ b.«end» := by
  unfold merge_overlaps
  have hs := List.sorted_insertionSort spanLE S
  have hperm := List.perm_insertionSort spanLE S
  cases hI : List.insertionSort spanLE S with
  | nil => simp
  | cons c rest =>
    rw [hI] at hs hperm
    have hwf : ∀ sp ∈ c :: rest, sp.start ≤ sp.«end» := fun sp hsp => h sp (hperm.subset hsp)
    exact mergeLoop_wf rest c hs (hwf c (List.mem_cons_self c rest))
      (fun sp hsp => hwf sp (List.mem_cons_of_mem _ hsp))

theorem mergeLoop_ne_nil (rest : List Span) : ∀ (cur : Span), mergeLoop cur rest ≠ [] := by
  induction rest with
  | nil => intro cur; simp [mergeLoop]
  | cons s rest ih =>
    intro cur
    rw [mergeLoop]
    by_cases h1 : s.start ≤ cur.«end»
    · rw [if_pos h1]
      by_cases h2 : lenI cur < lenI s
      · rw [if_pos h2]; exact ih _
      · rw [if_neg h2]; exact ih _
    · rw [if_neg h1]; simp

theorem merge_overlaps_ne_nil {S : List Span} (h : S ≠ []) : merge_overlaps S ≠ [] := by
  unfold merge_overlaps
  have hperm := List.perm_insertionSort spanLE S
  cases hI : List.insertionSort spanLE S with
  | nil =>
    rw [hI] at hperm
    exact absurd hperm.symm.eq_nil h
  | cons c rest => exact mergeLoop_ne_nil rest c

theorem mergeLoop_of_gaps (rest : List Span) : ∀ (cur : Span),
    List.Chain' (fun a b => a.«end» < b.start) (cur :: rest) →
    mergeLoop cur rest = cur :: rest := by
  induction rest with
  | nil => intro cur _; rfl
  | cons s rest ih =>
    intro cur hch
    rw [List.chain'_cons] at hch
    obtain ⟨hR, hch⟩ := hch
    rw [mergeLoop, if_neg (by omega), ih s hch]

theorem merge_overlaps_idem (S : List Span) :
    merge_overlaps (merge_overlaps S) = merge_overlaps S := by
  have hch := merge_chain S
  have hsorted : List.Sorted spanLE (merge_overlaps S) :=
    (List.chain'_iff_pairwise.mp hch).imp fun h => h.2
  conv_lhs => rw [merge_overlaps]
  rw [hsorted.insertionSort_eq]
  cases hM : merge_overlaps S with
  | nil => rfl
  | cons c rest =>
    rw [hM] at hch
    exact mergeLoop_of_gaps rest c (hch.imp fun _ _ hab => hab.1)

/-! ### Counting redacted characters -/

/-- The finite set of character positions covered by a span list. -/
def coverF : List Span → Finset Int
  | [] => ∅
  | sp :: rest => Finset.Ico sp.start sp.«end» ∪ coverF rest

theorem mem_coverF {p : Int} : ∀ {S : List Span}, p ∈ coverF S ↔ inCover p S := by
  intro S
  induction S with
  | nil => simp [coverF, inCover]
  | cons a T ih =>
    rw [coverF, Finset.mem_union, Finset.mem_Ico, ih, inCover_cons]

theorem coverF_card : ∀ (S : List Span), S.Pairwise (fun a b => ¬ overlap a b) →
    (∀ sp ∈ S, sp.start ≤ sp.«end») → ((coverF S).card : Int) = (S.map lenI).sum := by
  intro S
  induction S with
  | nil => intro _ _; simp [coverF]
  | cons a T ih =>
    intro hdis hwf
    rw [List.pairwise_cons] at hdis
    obtain ⟨ha, hT⟩ := hdis
    have hdisj : Disjoint (Finset.Ico a.start a.«end») (coverF T) := by
      rw [Finset.disjoint_left]
      intro x hx hx'
      rw [Finset.mem_Ico] at hx
      rw [mem_coverF] at hx'
      obtain ⟨sp, hsp, hc⟩ := hx'
      have hno := not_not.mp (ha sp hsp)
      omega
    rw [coverF, Finset.card_union_of_disjoint hdisj, List.map_cons, List.sum_cons]
    push_cast
    rw [Int.card_Ico, Int.toNat_of_nonneg (by have := hwf a (List.mem_cons_self a T); omega),
      ih hT (fun sp hsp => hwf sp (List.mem_cons_of_mem _ hsp))]
    unfold lenI
    ring

theorem redactLoop_bytes (text fmt : List Char) :
    ∀ (M : List Span) (last : Int) (pr : List Char × Int),
    redactLoop text fmt last M = .ok pr → pr.2 = (M.map lenI).sum := by
  intro M
  induction M with
  | nil =>
    intro last pr h
    rw [redactLoop] at h
    injection h with h
    rw [← h]
    simp
  | cons sp rest ih =>
    intro last pr h
    rw [redactLoop] at h
    cases htok : pyFormat fmt sp.type.toList with
    | error e => rw [htok] at h; exact absurd h (by simp)
    | ok tok =>
      rw [htok] at h
      cases hrec : redactLoop text fmt sp.«end» rest with
      | error e => rw [hrec] at h; exact absurd h (by simp)
      | ok pr' =>
        rw [hrec] at h
        injection h with h
        rw [← h]
        simp only [List.map_cons, List.sum_cons]
        rw [ih sp.«end» pr' hrec]
        unfold lenI
        ring

/-! ### Claim C1 -/

/-- C1: `merge_overlaps` is idempotent, and its output is sorted ascending by
`start`, pairwise non-overlapping, and covers exactly the same set of
character positions as the union of the intervals of the input spans. -/
theorem c1_merge_idempotent_sorted_disjoint_covering (S : List Span) :
    merge_overlaps (merge_overlaps S) = merge_overlaps S ∧
    (merge_overlaps S).Pairwise (fun a b => a.start ≤ b.start) ∧
    (merge_overlaps S).Pairwise (fun a b => ¬ overlap a b) ∧
    (∀ p : Int, inCover p (merge_overlaps S) ↔ inCover p S) := by
  refine ⟨merge_overlaps_idem S, ?_, ?_, merge_cover S⟩
  · exact (merge_pairwiseR S).imp fun h => spanLE_start h.2
  · exact (merge_pairwiseR S).imp fun h hov => hov (Or.inl (le_of_lt h.1))

/-! ### Literal token templates -/

/-- A token template with no brace characters at all. -/
def braceFree (tmpl : List Char) : Prop := ∀ c ∈ tmpl, c ≠ '{' ∧ c ≠ '}'

instance (tmpl : List Char) : Decidable (braceFree tmpl) := by
  unfold braceFree; infer_instance

theorem pyFormatAux_literal (v : List Char) : ∀ (tmpl : List Char),
    braceFree tmpl → pyFormatAux v 0 [] tmpl = .ok tmpl := by
  intro tmpl
  induction tmpl with
  | nil => intro _; rfl
  | cons c rest ih =>
    intro h
    have hc := h c (List.mem_cons_self c rest)
    have hrest : braceFree rest := fun x hx => h x (List.mem_cons_of_mem _ hx)
    rw [pyFormatAux, if_neg hc.1, if_neg hc.2, ih hrest]
    rfl

theorem pyFormat_literal {tmpl : List Char} (h : braceFree tmpl) (v : List Char) :
    pyFormat tmpl v = .ok tmpl :=
  pyFormatAux_literal v tmpl h

/-- The literal-splicing redactor described by the spec for templates without
the type placeholder: the template text is emitted verbatim at each merged
span, with no type information. -/
def literalRedact (text tmpl : List Char) (last : Int) : List Span → List Char × Int
  | [] => (pySliceFrom text last, 0)
  | sp :: rest =>
    let pr := literalRedact text tmpl sp.«end» rest
    (pySlice text last sp.start ++ tmpl ++ pr.1, (sp.«end» - sp.start) + pr.2)

theorem redactLoop_literal (text tmpl : List Char) (h : braceFree tmpl) :
    ∀ (M : List Span) (last : Int),
    redactLoop text tmpl last M = .ok (literalRedact text tmpl last M) := by
  intro M
  induction M with
  | nil => intro _; rfl
  | cons sp rest ih =>
    intro last
    rw [redactLoop, pyFormat_literal h, ih sp.«end»]
    rfl

/-! ### Inversion lemmas for the pattern detector -/

theorem processMatch_cases {text : List Char} {t : PIIType} {m : Nat × Nat} {sp : Span}
    (h : processMatch text t m = some sp) :
    sp.type = t.value ∧
    sp.start = (_clip_span (m.1 : Int) (m.2 : Int) text.length).1 ∧
    sp.«end» = (_clip_span (m.1 : Int) (m.2 : Int) text.length).2 ∧
    sp.text = pySlice text (_clip_span (m.1 : Int) (m.2 : Int) text.length).1
        (_clip_span (m.1 : Int) (m.2 : Int) text.length).2 ∧
    (t = .CREDIT_CARD →
      13 ≤ (sp.text.filter Char.isDigit).length ∧
      _luhn_ok (sp.text.filter Char.isDigit) = true) := by
  simp only [processMatch] at h
  by_cases hcc : t = .CREDIT_CARD
  · rw [if_pos hcc] at h
    split at h
    · exact absurd h (by simp)
    · rename_i hcond
      injection h with h
      subst h
      push_neg at hcond
      refine ⟨rfl, rfl, rfl, rfl, fun _ => ⟨hcond.1, ?_⟩⟩
      simp only
      exact Bool.not_eq_false _ ▸ hcond.2
  · rw [if_neg hcc] at h
    by_cases hip : t = .IPV4
    · rw [if_pos hip] at h
      split at h
      · exact absurd h (by simp)
      · split at h
        · exact absurd h (by simp)
        · injection h with h
          subst h
          exact ⟨rfl, rfl, rfl, rfl, fun hc => absurd hc hcc⟩
    · rw [if_neg hip] at h
      injection h with h
      subst h
      exact ⟨rfl, rfl, rfl, rfl, fun hc => absurd hc hcc⟩

theorem mem_detect {matcher : Matcher} {text : List Char} {sp : Span} :
    sp ∈ detect_pii_heuristics matcher text ↔
    ∃ t ∈ piiTable, ∃ m ∈ matcher t text, processMatch text t m = some sp := by
  unfold detect_pii_heuristics
  simp [List.mem_flatMap, List.mem_filterMap]

theorem value_eq_cc {t : PIIType} (h : t.value = "CREDIT_CARD") : t = .CREDIT_CARD := by
  cases t <;> first | rfl | exact absurd h (by decide)

theorem clip_bounds (s e : Int) (n : Nat) :
    0 ≤ (_clip_span s e n).1 ∧ (_clip_span s e n).1 ≤ (n : Int) ∧
    0 ≤ (_clip_span s e n).2 ∧ (_clip_span s e n).2 ≤ (n : Int) ∧
    (s ≤ e → (_clip_span s e n).1 ≤ (_clip_span s e n).2) := by
  unfold _clip_span
  simp only
  omega

/-! ### The merge sweep never writes the `start` field -/

/-- A tagged span whose `start` field agrees with the span originally stored
at its index of `spans`. -/
def idxStart (spans : List Span) (q : Nat × Span) : Prop :=
  ∃ s₀, (q.1, s₀) ∈ spans.enum ∧ q.2.start = s₀.start

theorem mergeLoopM_start (spans : List Span) : ∀ (rest : List (Nat × Span)) (cur : Nat × Span),
    idxStart spans cur → (∀ x ∈ rest, idxStart spans x) →
    ∀ y ∈ mergeLoopM cur rest, idxStart spans y := by
  intro rest
  induction rest with
  | nil =>
    intro cur hcur _ y hy
    simp only [mergeLoopM, List.mem_singleton] at hy
    subst hy; exact hcur
  | cons q rest ih =>
    intro cur hcur hrest y hy
    obtain ⟨j, s⟩ := q
    rw [mergeLoopM] at hy
    have hrest' : ∀ x ∈ rest, idxStart spans x :=
      fun x hx => hrest x (List.mem_cons_of_mem _ hx)
    by_cases h1 : s.start ≤ cur.2.«end»
    · rw [if_pos h1] at hy
      by_cases h2 : lenI cur.2 < lenI s
      · rw [if_pos h2] at hy
        obtain ⟨s₀, hm, hst⟩ := hcur
        exact ih (cur.1, { cur.2 with «end» := s.«end», text := s.text, type := s.type })
          ⟨s₀, hm, hst⟩ hrest' y hy
      · rw [if_neg h2] at hy
        obtain ⟨s₀, hm, hst⟩ := hcur
        exact ih (cur.1, { cur.2 with «end» := max cur.2.«end» s.«end» })
          ⟨s₀, hm, hst⟩ hrest' y hy
    · rw [if_neg h1] at hy
      rcases List.mem_cons.mp hy with rfl | hy'
      · exact hcur
      · exact ih _ (hrest _ (List.mem_cons_self _ _)) hrest' y hy'

theorem mergeIndexed_start (spans : List Span) :
    ∀ y ∈ mergeIndexed spans, idxStart spans y := by
  unfold mergeIndexed
  have hperm := List.perm_insertionSort spanLEi spans.enum
  cases hI : List.insertionSort spanLEi spans.enum with
  | nil => simp
  | cons c rest =>
    rw [hI] at hperm
    have hmem : ∀ x ∈ c :: rest, idxStart spans x := by
      intro x hx
      exact ⟨x.2, hperm.subset hx, rfl⟩
    exact mergeLoopM_start spans rest c (hmem c (List.mem_cons_self c rest))
      (fun x hx => hmem x (List.mem_cons_of_mem _ hx))

theorem mergePost_length (spans : List Span) : (mergePost spans).length = spans.length := by
  simp [mergePost]

theorem mergePost_start (spans : List Span) :
    (mergePost spans).map Span.start = spans.map Span.start := by
  apply List.ext_getElem
  · simp [mergePost]
  · intro i h1 h2
    simp only [mergePost, List.getElem_map, List.enum, List.getElem_enumFrom, Nat.zero_add]
    cases hf : (mergeIndexed spans).find? (fun q => q.1 == i) with
    | none => simp only [hf]
    | some q =>
      simp only [hf]
      have hq := List.mem_of_find?_eq_some hf
      have hp := List.find?_some hf
      have hqi : q.1 = i := by simpa using hp
      obtain ⟨s₀, hmem, hst⟩ := mergeIndexed_start spans q hq
      rw [hqi] at hmem
      have hget := List.mk_mem_enum_iff_getElem?.mp hmem
      have h2' : i < spans.length := by simpa using h2
      rw [List.getElem?_eq_getElem h2'] at hget
      injection hget with hget
      rw [hst, ← hget]

/-! ### Claims C2, C3, C5, C6, C9 -/

/-- C2 counterexample: an LLM span with `start > end` (allowed by the span
schema, which only requires both offsets to be ≥ 0) survives the core's
clamping step with `start > end`: in llm mode on the 10-character text
`"helloworld"`, the raw span `EMAIL[5,2)` is returned clamped as `[5,2)`,
violating `start ≤ end`. -/
theorem c2_counterexample :
    _pii_redact_core (fun _ _ => []) .llm ("helloworld".toList)
        (.ok [⟨"EMAIL", 5, 2, "x".toList⟩]) ("[REDACTED:{type}]".toList) =
      .ok ⟨.llm, "hello[REDACTED:EMAIL]lloworld".toList, [⟨"EMAIL", 5, 2, []⟩],
        [("heuristic_spans", 0), ("llm_spans", 1), ("union_spans", 1), ("bytes_redacted", -3)],
        none⟩ ∧
    ¬ ((⟨"EMAIL", 5, 2, []⟩ : Span).start ≤ (⟨"EMAIL", 5, 2, []⟩ : Span).«end») := by
  exact ⟨by decide, by decide⟩

/-- C2 amended: every heuristic-detector span satisfies
`0 ≤ start ≤ end ≤ length(text)` (regex matches have `start ≤ end`); the
core's clamping step puts every LLM span's offsets into `[0, length(text)]`
without raising, and preserves `start ≤ end` whenever the raw span already
satisfied it — but it does not reorder offsets, so a raw LLM span with
`start > end` keeps `start > end` after clamping. -/
theorem c2_amended :
    (∀ (matcher : Matcher) (text : List Char),
      (∀ (t : PIIType) (m : Nat × Nat), m ∈ matcher t text → m.1 ≤ m.2) →
      ∀ sp ∈ detect_pii_heuristics matcher text,
        0 ≤ sp.start ∧ sp.start ≤ sp.«end» ∧ sp.«end» ≤ (text.length : Int)) ∧
    (∀ (text : List Char) (spans : List Span), ∀ sp ∈ clampSpans text spans,
        0 ≤ sp.start ∧ sp.start ≤ (text.length : Int) ∧
        0 ≤ sp.«end» ∧ sp.«end» ≤ (text.length : Int)) ∧
    (∀ (s e : Int) (n : Nat), s ≤ e → (_clip_span s e n).1 ≤ (_clip_span s e n).2) := by
  refine ⟨?_, ?_, ?_⟩
  · intro matcher text hm sp hsp
    obtain ⟨t, -, m, hmm, hproc⟩ := mem_detect.mp hsp
    obtain ⟨-, hstart, hend, -, -⟩ := processMatch_cases hproc
    obtain ⟨b1, b2, b3, b4, b5⟩ := clip_bounds (m.1 : Int) (m.2 : Int) text.length
    have hord : (m.1 : Int) ≤ (m.2 : Int) := Int.ofNat_le.mpr (hm t m hmm)
    rw [hstart, hend]
    exact ⟨b1, b5 hord, b4⟩
  · intro text spans sp hsp
    unfold clampSpans at hsp
    rw [List.mem_map] at hsp
    obtain ⟨sp0, -, heq⟩ := hsp
    obtain ⟨b1, b2, b3, b4, -⟩ := clip_bounds sp0.start sp0.«end» text.length
    rw [← heq]
    exact ⟨b1, b2, b3, b4⟩
  · intro s e n h
    exact (clip_bounds s e n).2.2.2.2 h

theorem c2_witness :
    0 ≤ (⟨"EMAIL", 0, 6, "a@b.co".toList⟩ : Span).start ∧
    (⟨"EMAIL", 0, 6, "a@b.co".toList⟩ : Span).start ≤
      (⟨"EMAIL", 0, 6, "a@b.co".toList⟩ : Span).«end» ∧
    (⟨"EMAIL", 0, 6, "a@b.co".toList⟩ : Span).«end» ≤
      ((("a@b.co hello you".toList)).length : Int) := by
  refine c2_amended.1 (fun t _ => if t = .EMAIL then [(0, 6)] else [])
    ("a@b.co hello you".toList) ?_ ⟨"EMAIL", 0, 6, "a@b.co".toList⟩ (by decide)
  intro t m hm
  dsimp only at hm
  by_cases ht : t = .EMAIL
  · rw [if_pos ht, List.mem_singleton] at hm
    subst hm; decide
  · rw [if_neg ht] at hm
    exact absurd hm (List.not_mem_nil m)

/-- C3 counterexample: the spans `EMAIL[0,10)` and `PHONE[4,14)` have *equal*
lengths (10 each), so the sweep keeps the current span's type: the merged
span is `EMAIL[0,14)`, not `PHONE[0,14)` as the claim states. -/
theorem c3_counterexample :
    merge_overlaps [⟨"EMAIL", 0, 10, "aaaaaaaaaa".toList⟩, ⟨"PHONE", 4, 14, "bbbbbbbbbb".toList⟩] =
      [⟨"EMAIL", 0, 14, "aaaaaaaaaa".toList⟩] ∧
    (⟨"EMAIL", 0, 14, "aaaaaaaaaa".toList⟩ : Span).type ≠ "PHONE" := by
  exact ⟨by decide, by decide⟩

/-- C3 amended: merging `EMAIL[0,10)` and `PHONE[4,14)` yields exactly one
span `[0,14)` whose type is `EMAIL`: the two spans have equal length, and on
a length tie the sweep keeps the earlier (current) span's `type` and `text`,
only extending its `end`. -/
theorem c3_amended :
    merge_overlaps [⟨"EMAIL", 0, 10, "aaaaaaaaaa".toList⟩, ⟨"PHONE", 4, 14, "bbbbbbbbbb".toList⟩] =
      [⟨"EMAIL", 0, 14, "aaaaaaaaaa".toList⟩] := by
  decide

/-- C5 counterexample: `merge_overlaps` mutates its input span objects in
place — after merging `EMAIL[0,10)` with the overlapping `PHONE[4,14)`, the
first input span object's `end` field has been overwritten to 14, so the
input list's spans do not all keep their original field values. -/
theorem c5_counterexample :
    mergePost [⟨"EMAIL", 0, 10, "aaaaaaaaaa".toList⟩, ⟨"PHONE", 4, 14, "bbbbbbbbbb".toList⟩] ≠
      [⟨"EMAIL", 0, 10, "aaaaaaaaaa".toList⟩, ⟨"PHONE", 4, 14, "bbbbbbbbbb".toList⟩] := by
  decide

/-- C5 amended: `merge_overlaps` aliases rather than copies: it may
overwrite the `type`, `end` and `text` fields of input spans that serve as
the running current span of the sweep.  It never changes the number or order
of the input list's spans and never writes any input span's `start` field. -/
theorem c5_amended (spans : List Span) :
    (mergePost spans).length = spans.length ∧
    (mergePost spans).map Span.start = spans.map Span.start :=
  ⟨mergePost_length spans, mergePost_start spans⟩

/-- C6: every CREDIT_CARD span the heuristic detector returns has, after
stripping non-digit characters, at least 13 digits and those digits pass the
Luhn check; `"4111111111111111"` validates true and `"4111111111111112"`
validates false. -/
theorem c6_credit_card_luhn :
    (∀ (matcher : Matcher) (text : List Char), ∀ sp ∈ detect_pii_heuristics matcher text,
      sp.type = "CREDIT_CARD" →
        13 ≤ (sp.text.filter Char.isDigit).length ∧
        _luhn_ok (sp.text.filter Char.isDigit) = true) ∧
    _luhn_ok ("4111111111111111".toList) = true ∧
    _luhn_ok ("4111111111111112".toList) = false := by
  refine ⟨?_, by decide, by decide⟩
  intro matcher text sp hsp htype
  obtain ⟨t, -, m, -, hproc⟩ := mem_detect.mp hsp
  obtain ⟨hty, -, -, -, hcc⟩ := processMatch_cases hproc
  exact hcc (value_eq_cc (hty ▸ htype))

theorem c6_witness :
    13 ≤ (("4111111111111111".toList).filter Char.isDigit).length ∧
    _luhn_ok (("4111111111111111".toList).filter Char.isDigit) = true :=
  c6_credit_card_luhn.1 (fun t _ => if t = .CREDIT_CARD then [(0, 16)] else [])
    ("4111111111111111".toList) ⟨"CREDIT_CARD", 0, 16, "4111111111111111".toList⟩
    (by decide) (by decide)

/-- C9: for empty input text, in every mode (and whatever the semantic
detector would have returned, even a failure) the engine returns an empty
span list, the unchanged empty text, every reported counter zero, and does
not raise. -/
theorem c9_empty_input (matcher : Matcher) (mode : Mode)
    (llmResult : Except String (List Span)) (fmt : List Char) :
    ∃ r : PIIResult, _pii_redact_core matcher mode [] llmResult fmt = .ok r ∧
      r.method = mode ∧ r.redacted_text = [] ∧ r.spans = [] ∧ ∀ kv ∈ r.stats, kv.2 = 0 := by
  refine ⟨⟨mode, [], [], [("total", 0)], none⟩, rfl, rfl, rfl, rfl, ?_⟩
  intro kv hkv
  rw [List.mem_singleton] at hkv
  rw [hkv]

/-! ### Claims C7, C8, C10 -/

/-- C7: `apply_redaction(text, [])` returns `(text, 0)` for any text and any
template; and for a span list that is already merged (sorted ascending by
start, pairwise non-overlapping, offsets within `[0, length(text)]` with
`start ≤ end`), the returned character count equals the sum of
`end - start` over the input spans, each counted exactly once. -/
theorem c7_redact_empty_and_byte_count :
    (∀ (text fmt : List Char), apply_redaction text [] fmt = .ok (text, 0)) ∧
    (∀ (text fmt : List Char) (S : List Span) (pr : List Char × Int),
      S.Pairwise (fun a b => a.start ≤ b.start) →
      S.Pairwise (fun a b => ¬ overlap a b) →
      (∀ sp ∈ S, 0 ≤ sp.start ∧ sp.start ≤ sp.«end» ∧ sp.«end» ≤ (text.length : Int)) →
      apply_redaction text S fmt = .ok pr →
      pr.2 = (S.map lenI).sum) := by
  constructor
  · intro text fmt; rfl
  · intro text fmt S pr hsort hdis hb happ
    unfold apply_redaction at happ
    by_cases hS : S = []
    · subst hS
      rw [if_pos rfl] at happ
      injection happ with happ
      rw [← happ]
      simp
    · rw [if_neg hS] at happ
      have hbytes := redactLoop_bytes text fmt (merge_overlaps S) 0 pr happ
      have hwfS : ∀ sp ∈ S, sp.start ≤ sp.«end» := fun sp hsp => (hb sp hsp).2.1
      have hwfM : ∀ b ∈ merge_overlaps S, b.start ≤ b.«end» := merge_wf S hwfS
      have hdisM : (merge_overlaps S).Pairwise (fun a b => ¬ overlap a b) :=
        (merge_pairwiseR S).imp fun h hov => hov (Or.inl (le_of_lt h.1))
      have hcardM := coverF_card (merge_overlaps S) hdisM hwfM
      have hcardS := coverF_card S hdis hwfS
      have hcov : coverF (merge_overlaps S) = coverF S := by
        apply Finset.ext
        intro p
        rw [mem_coverF, mem_coverF]
        exact merge_cover S p
      rw [hbytes, ← hcardM, hcov, hcardS]

theorem c7_witness :
    (("[REDACTED:EMAIL]world".toList, (5 : Int)) : List Char × Int).2 =
      (([⟨"EMAIL", 0, 5, "hello".toList⟩] : List Span).map lenI).sum :=
  c7_redact_empty_and_byte_count.2 ("helloworld".toList) ("[REDACTED:{type}]".toList)
    [⟨"EMAIL", 0, 5, "hello".toList⟩] ("[REDACTED:EMAIL]world".toList, 5)
    (by decide) (by decide) (by decide) (by decide)

/-- C8 counterexample: a template whose `{type}` placeholder is absent but
which contains a different replacement field is *not* emitted literally:
`str.format` raises (KeyError), so `apply_redaction` fails instead of
emitting the template text. -/
theorem c8_counterexample :
    apply_redaction ("helloworld".toList) [⟨"EMAIL", 0, 5, "hello".toList⟩]
        ("{other}".toList) =
      .error "KeyError: unknown field in format string" := by
  decide

/-- C8 amended: for every token template with no brace characters at all
(so no replacement field of any kind), `apply_redaction` never fails and
emits the template text literally, with no type information, in place of
each merged span. -/
theorem c8_braceFree_template_literal (text tmpl : List Char) (S : List Span)
    (h : braceFree tmpl) :
    apply_redaction text S tmpl = .ok (literalRedact text tmpl 0 (merge_overlaps S)) := by
  unfold apply_redaction
  by_cases hS : S = []
  · rw [if_pos hS, hS]
    have hslice : pySliceFrom text 0 = text := by
      unfold pySliceFrom pyIdx
      simp
    rw [show merge_overlaps ([] : List Span) = [] from rfl, literalRedact, hslice]
  · rw [if_neg hS]
    exact redactLoop_literal text tmpl h (merge_overlaps S) 0

theorem c8_witness :
    apply_redaction ("helloworld".toList) [⟨"EMAIL", 0, 5, "hello".toList⟩] ("<X>".toList) =
      .ok (literalRedact ("helloworld".toList) ("<X>".toList) 0
        (merge_overlaps [⟨"EMAIL", 0, 5, "hello".toList⟩])) :=
  c8_braceFree_template_literal ("helloworld".toList) ("<X>".toList)
    [⟨"EMAIL", 0, 5, "hello".toList⟩] (by decide)

/-- C10: for every text and every well-formed span list (offsets in
`[0, length(text)]`, `start ≤ end`) — unsorted, duplicated or overlapping —
redacting the raw list and redacting its merged form produce the same
result: `apply_redaction` canonicalizes its input through `merge_overlaps`
internally, and `merge_overlaps` is idempotent. -/
theorem c10_redactor_canonicalizes (text fmt : List Char) (S : List Span)
    (hb : ∀ sp ∈ S, 0 ≤ sp.start ∧ sp.start ≤ sp.«end» ∧ sp.«end» ≤ (text.length : Int)) :
    apply_redaction text S fmt = apply_redaction text (merge_overlaps S) fmt := by
  by_cases hS : S = []
  · subst hS; rfl
  · unfold apply_redaction
    rw [if_neg hS, if_neg (merge_overlaps_ne_nil hS), merge_overlaps_idem]

theorem c10_witness :
    apply_redaction ("helloworld".toList)
        [⟨"EMAIL", 0, 5, "hello".toList⟩, ⟨"EMAIL", 3, 7, "low".toList⟩]
        ("[REDACTED:{type}]".toList) =
      apply_redaction ("helloworld".toList)
        (merge_overlaps [⟨"EMAIL", 0, 5, "hello".toList⟩, ⟨"EMAIL", 3, 7, "low".toList⟩])
        ("[REDACTED:{type}]".toList) :=
  c10_redactor_canonicalizes ("helloworld".toList) ("[REDACTED:{type}]".toList)
    [⟨"EMAIL", 0, 5, "hello".toList⟩, ⟨"EMAIL", 3, 7, "low".toList⟩] (by decide)

/-! ### Claim C4 -/

/-- Hybrid-mode fixture: a matcher whose EMAIL pattern matches `[0,6)`. -/
def hybridMatcherX : Matcher := fun t _ => if t = .EMAIL then [(0, 6)] else []

/-- Hybrid-mode fixture: the 16-character input text. -/
def hybridTextX : List Char := "a@b.co hello you".toList

/-- Hybrid-mode fixture: the semantic detector's two spans. -/
def hybridLlmX : List Span := [⟨"EMAIL", 0, 7, "x".toList⟩, ⟨"PHONE", 7, 16, "y".toList⟩]

/-- Hybrid-mode fixture: the response the core produces on the fixture. -/
def hybridResultX : PIIResult :=
  ⟨.hybrid, "[REDACTED:PHONE]".toList, [⟨"PHONE", 0, 16, "hello you".toList⟩],
    [("heuristic_spans", 1), ("llm_spans", 2), ("union_spans", 1), ("bytes_redacted", 16)],
    some ⟨0, 1, 2⟩⟩

/-- C4 counterexample: in hybrid mode the agreement loop runs *after*
`merge_overlaps`, which has mutated aliased span objects in place, so the
reported tally `{agree 0, heur_only 1, llm_only 2}` differs from the tally
computed on the two pre-merge detector span lists, which is
`{agree 1, heur_only 0, llm_only 1}` (the heuristic `EMAIL[0,6)` overlaps
the raw LLM `EMAIL[0,7)` with equal type, but that LLM span object has been
mutated into `PHONE[0,16)` by the merge before the tally is taken). -/
theorem c4_counterexample :
    _pii_redact_core hybridMatcherX .hybrid hybridTextX (.ok hybridLlmX)
        ("[REDACTED:{type}]".toList) = .ok hybridResultX ∧
    hybridResultX.tally = some ⟨0, 1, 2⟩ ∧
    computeTally (detect_pii_heuristics hybridMatcherX hybridTextX)
        (clampSpans hybridTextX hybridLlmX) = ⟨1, 0, 1⟩ ∧
    some (⟨0, 1, 2⟩ : Tally) ≠ some (⟨1, 0, 1⟩ : Tally) := by
  exact ⟨by decide, by decide, by decide, by decide⟩

/-- C4 amended: in hybrid mode on nonempty text, the reported agreement
tally is `computeTally` applied to the two detector span lists *as they
stand after `merge_overlaps` has mutated aliased spans in place*
(`mergePost` of the concatenated list, split back at the heuristic list's
length) — not to the raw pre-merge lists; and the tally computation never
alters the response: the returned span set is exactly
`merge_overlaps(heuristic ++ clamped LLM)` and the redacted text is exactly
what `apply_redaction` produces from that merged set. -/
theorem c4_amended (matcher : Matcher) (text : List Char) (llmSpans : List Span)
    (fmt : List Char) (r : PIIResult)
    (hne : text.length ≠ 0)
    (hr : _pii_redact_core matcher .hybrid text (.ok llmSpans) fmt = .ok r) :
    r.tally = some (computeTally
        ((mergePost (detect_pii_heuristics matcher text ++ clampSpans text llmSpans)).take
          (detect_pii_heuristics matcher text).length)
        ((mergePost (detect_pii_heuristics matcher text ++ clampSpans text llmSpans)).drop
          (detect_pii_heuristics matcher text).length)) ∧
    r.spans = merge_overlaps (detect_pii_heuristics matcher text ++ clampSpans text llmSpans) ∧
    ∃ b : Int, apply_redaction text
        (merge_overlaps (detect_pii_heuristics matcher text ++ clampSpans text llmSpans)) fmt =
      .ok (r.redacted_text, b) := by
  unfold _pii_redact_core at hr
  rw [if_neg hne] at hr
  rw [if_pos (Or.inr rfl), if_pos (Or.inr rfl)] at hr
  dsimp only at hr
  cases happ : apply_redaction text
      (merge_overlaps (detect_pii_heuristics matcher text ++ clampSpans text llmSpans)) fmt with
  | error e =>
    rw [happ] at hr
    cases hr
  | ok pr =>
    rw [happ] at hr
    injection hr with hr
    rw [← hr]
    exact ⟨rfl, rfl, pr.2, rfl⟩

theorem c4_witness :
    hybridResultX.tally = some (computeTally
        ((mergePost (detect_pii_heuristics hybridMatcherX hybridTextX ++
            clampSpans hybridTextX hybridLlmX)).take
          (detect_pii_heuristics hybridMatcherX hybridTextX).length)
        ((mergePost (detect_pii_heuristics hybridMatcherX hybridTextX ++
            clampSpans hybridTextX hybridLlmX)).drop
          (detect_pii_heuristics hybridMatcherX hybridTextX).length)) ∧
    hybridResultX.spans = merge_overlaps (detect_pii_heuristics hybridMatcherX hybridTextX ++
        clampSpans hybridTextX hybridLlmX) ∧
    ∃ b : Int, apply_redaction hybridTextX
        (merge_overlaps (detect_pii_heuristics hybridMatcherX hybridTextX ++
          clampSpans hybridTextX hybridLlmX)) ("[REDACTED:{type}]".toList) =
      .ok (hybridResultX.redacted_text, b) :=
  c4_amended hybridMatcherX hybridTextX hybridLlmX ("[REDACTED:{type}]".toList) hybridResultX
    (by decide) (by decide)

end Safai
